import Mathlib

/-!
Verification of a single-node blockchain ledger (`blockchain.py`).

The development shallowly embeds the Python source: bytes are `List Nat`
(each entry a byte value), strings are Lean `String`s (all strings that
reach the hash functions are pure ASCII, where UTF-8 encoding coincides
with the character code points), Python `int`s are `Int`, and the wall
clock readings taken by `time()` are passed in explicitly as parameters.
-/

set_option maxRecDepth 4000000

namespace Chain

/-! ## SHA-256 over byte lists (bytes are `Nat` values, words are `Nat % 2^32`) -/

def M32 : Nat := 4294967296

def rotr (k n : Nat) : Nat := ((n >>> k) ||| (n <<< (32 - k))) % M32

def smallSigma0 (n : Nat) : Nat := rotr 7 n ^^^ rotr 18 n ^^^ (n >>> 3)

def smallSigma1 (n : Nat) : Nat := rotr 17 n ^^^ rotr 19 n ^^^ (n >>> 10)

def bigSigma0 (n : Nat) : Nat := rotr 2 n ^^^ rotr 13 n ^^^ rotr 22 n

def bigSigma1 (n : Nat) : Nat := rotr 6 n ^^^ rotr 11 n ^^^ rotr 25 n

def chFn (x y z : Nat) : Nat := (x &&& y) ^^^ ((x ^^^ 4294967295) &&& z)

def majFn (x y z : Nat) : Nat := (x &&& y) ^^^ (x &&& z) ^^^ (y &&& z)

/-- The 64 SHA-256 round constants, in decimal. -/
def k256 : List Nat :=
  [1116352408, 1899447441, 3049323471, 3921009573, 961987163, 1508970993, 2453635748,
   2870763221, 3624381080, 310598401, 607225278, 1426881987, 1925078388, 2162078206, 2614888103,
   3248222580, 3835390401, 4022224774, 264347078, 604807628, 770255983, 1249150122, 1555081692,
   1996064986, 2554220882, 2821834349, 2952996808, 3210313671, 3336571891, 3584528711,
   113926993, 338241895, 666307205, 773529912, 1294757372, 1396182291, 1695183700, 1986661051,
   2177026350, 2456956037, 2730485921, 2820302411, 3259730800, 3345764771, 3516065817,
   3600352804, 4094571909, 275423344, 430227734, 506948616, 659060556, 883997877, 958139571,
   1322822218, 1537002063, 1747873779, 1955562222, 2024104815, 2227730452, 2361852424,
   2428436474, 2756734187, 3204031479, 3329325298]

structure H8 where
  a : Nat
  b : Nat
  c : Nat
  d : Nat
  e : Nat
  f : Nat
  g : Nat
  h : Nat

/-- The eight SHA-256 initial hash values, in decimal. -/
def initH : H8 :=
  ⟨1779033703, 3144134277, 1013904242, 2773480762, 1359893119, 2600822924, 528734635,
   1541459225⟩

def sha256Round (st : H8) (kw : Nat × Nat) : H8 :=
  let t1 := (st.h + bigSigma1 st.e + chFn st.e st.f st.g + kw.1 + kw.2) % M32
  let t2 := (bigSigma0 st.a + majFn st.a st.b st.c) % M32
  ⟨(t1 + t2) % M32, st.a, st.b, st.c, (st.d + t1) % M32, st.e, st.f, st.g⟩

def toWords : List Nat → List Nat
  | b0 :: b1 :: b2 :: b3 :: rest =>
      (b0 * 16777216 + b1 * 65536 + b2 * 256 + b3) :: toWords rest
  | _ => []

def extendW : List Nat → Nat → List Nat
  | w, 0 => w
  | w, n + 1 =>
      let t := (smallSigma1 (w.getD (w.length - 2) 0) + w.getD (w.length - 7) 0 +
                smallSigma0 (w.getD (w.length - 15) 0) + w.getD (w.length - 16) 0) % M32
      extendW (w ++ [t]) n

def processBlock (st : H8) (blockBytes : List Nat) : H8 :=
  let w := extendW (toWords blockBytes) 48
  let r := (k256.zip w).foldl sha256Round st
  ⟨(st.a + r.a) % M32, (st.b + r.b) % M32, (st.c + r.c) % M32, (st.d + r.d) % M32,
   (st.e + r.e) % M32, (st.f + r.f) % M32, (st.g + r.g) % M32, (st.h + r.h) % M32⟩

def be64 (n : Nat) : List Nat :=
  [n >>> 56 % 256, n >>> 48 % 256, n >>> 40 % 256, n >>> 32 % 256,
   n >>> 24 % 256, n >>> 16 % 256, n >>> 8 % 256, n % 256]

def padMessage (msg : List Nat) : List Nat :=
  let z := (119 - msg.length % 64) % 64
  msg ++ [128] ++ List.replicate z 0 ++ be64 (msg.length * 8)

def chunksGo : Nat → List Nat → List (List Nat)
  | 0, _ => []
  | _, [] => []
  | fuel + 1, l => l.take 64 :: chunksGo fuel (l.drop 64)

def chunks64 (l : List Nat) : List (List Nat) := chunksGo l.length l

def sha256words (msg : List Nat) : List Nat :=
  let st := (chunks64 (padMessage msg)).foldl processBlock initH
  [st.a, st.b, st.c, st.d, st.e, st.f, st.g, st.h]

def hexDigit (d : Nat) : Char :=
  if d < 10 then Char.ofNat (48 + d) else Char.ofNat (87 + d)

def toHexFixed : Nat → Nat → List Char
  | 0, _ => []
  | k + 1, n => toHexFixed k (n / 16) ++ [hexDigit (n % 16)]

def hexCharsOfWords (ws : List Nat) : List Char :=
  ws.foldr (fun w acc => toHexFixed 8 w ++ acc) []

/-- Lowercase hexadecimal SHA-256 digest, as a character list. -/
def sha256hexChars (msg : List Nat) : List Char := hexCharsOfWords (sha256words msg)

/-- Lowercase hexadecimal SHA-256 digest, as a string (`hashlib.sha256(...).hexdigest()`). -/
def sha256hex (msg : List Nat) : String := String.mk (sha256hexChars msg)

/-- UTF-8 encoding of a string; on the pure-ASCII strings this development
hashes, UTF-8 bytes coincide with the character code points (`str.encode()`). -/
def strToBytes (s : String) : List Nat := s.data.map Char.toNat

/-! ## CPython `repr` of a bytes object

`valid_proof` in the source builds its hash preimage with
`f'{block_string}{proof}'` where `block_string` is a `bytes` value; Python
formats a `bytes` value by its `repr`, the ASCII string `b'...'`.  The
functions below model CPython's `bytes.__repr__`: the quote character is
a single quote unless the bytes contain a single quote and no double
quote; backslash, the quote character, tab, newline and carriage return
are escaped; other bytes outside the printable ASCII range appear as
`\xhh` with lowercase hex digits. -/

def byteReprBody (q b : Nat) : List Char :=
  if b = 92 then ['\\', '\\']
  else if b = q then ['\\', Char.ofNat q]
  else if b = 9 then ['\\', 't']
  else if b = 10 then ['\\', 'n']
  else if b = 13 then ['\\', 'r']
  else if 32 ≤ b ∧ b ≤ 126 then [Char.ofNat b]
  else ['\\', 'x', hexDigit (b / 16 % 16), hexDigit (b % 16)]

def pyBytesReprChars (bs : List Nat) : List Char :=
  let q : Nat := if bs.contains 39 && !(bs.contains 34) then 34 else 39
  'b' :: Char.ofNat q :: bs.foldr (fun b acc => byteReprBody q b ++ acc) [Char.ofNat q]

def pyBytesRepr (bs : List Nat) : String := String.mk (pyBytesReprChars bs)

/-! ## `json.dumps(..., sort_keys=True)`

A model of the JSON values the program serializes and of CPython's
`json.dumps` with its default separators `', '` and `': '`, default
`ensure_ascii=True` escaping, and `sort_keys=True` (object entries
ordered by the lexicographic code-point order on key strings; dict keys
are unique, so the comparison never goes past the key). -/

inductive Json where
  | num (n : Int)
  | str (s : String)
  | arr (xs : List Json)
  | obj (kvs : List (String × Json))

def jsonEscapeChar (c : Char) : List Char :=
  if c = '"' then ['\\', '"']
  else if c = '\\' then ['\\', '\\']
  else if 32 ≤ c.toNat ∧ c.toNat ≤ 126 then [c]
  else if c.toNat = 8 then ['\\', 'b']
  else if c.toNat = 12 then ['\\', 'f']
  else if c.toNat = 10 then ['\\', 'n']
  else if c.toNat = 13 then ['\\', 'r']
  else if c.toNat = 9 then ['\\', 't']
  else if c.toNat ≤ 65535 then '\\' :: 'u' :: toHexFixed 4 c.toNat
  else
    let m := c.toNat - 65536
    '\\' :: 'u' :: toHexFixed 4 (55296 + m / 1024) ++
      ('\\' :: 'u' :: toHexFixed 4 (56320 + m % 1024))

def jsonQuote (s : String) : String :=
  String.mk ('"' :: s.data.foldr (fun c acc => jsonEscapeChar c ++ acc) ['"'])

/-- Lexicographic code-point comparison on character lists, Python's `<=` on `str`. -/
def charListLe : List Char → List Char → Bool
  | [], _ => true
  | _ :: _, [] => false
  | a :: as, b :: bs =>
      if a.toNat < b.toNat then true
      else if b.toNat < a.toNat then false
      else charListLe as bs

def strLe (s t : String) : Bool := charListLe s.data t.data

/-- Key order on serialized object entries. -/
def entryLe (p q : String × String) : Prop := strLe p.1 q.1 = true

instance : DecidableRel entryLe := fun p q => inferInstanceAs (Decidable (strLe p.1 q.1 = true))

/-- Sort serialized object entries by key (`sort_keys=True`).  CPython sorts
the dict items with its stable sort; dict keys are unique, so every sort by
key produces the same list and insertion sort models it faithfully. -/
def sortEntries (l : List (String × String)) : List (String × String) :=
  List.insertionSort entryLe l

def renderEntry (e : String × String) : String := jsonQuote e.1 ++ ": " ++ e.2

mutual

def Json.dumps : Json → String
  | .num n => toString n
  | .str s => jsonQuote s
  | .arr xs => "[" ++ String.intercalate ", " (Json.dumpsList xs) ++ "]"
  | .obj kvs =>
      "\x7b" ++ String.intercalate ", " ((sortEntries (Json.dumpsEntries kvs)).map renderEntry)
        ++ "\x7d"

def Json.dumpsList : List Json → List String
  | [] => []
  | x :: xs => Json.dumps x :: Json.dumpsList xs

def Json.dumpsEntries : List (String × Json) → List (String × String)
  | [] => []
  | (k, v) :: kvs => (k, Json.dumps v) :: Json.dumpsEntries kvs

end

/-! ## The ledger (`class Blockchain`)

The `previous_hash` field of a block is either the genesis sentinel
integer `1` or a hex digest string, and `new_block`'s optional
`previous_hash` parameter may carry any such value or be absent
(`None`); `PyVal` models these Python values together with Python's
truthiness test used by the `previous_hash or self.hash(...)` fallback. -/

inductive PyVal where
  | int (n : Int)
  | str (s : String)
deriving DecidableEq, Repr

def PyVal.truthy : PyVal → Bool
  | .int n => n != 0
  | .str s => s != ""

def PyVal.toJson : PyVal → Json
  | .int n => Json.num n
  | .str s => Json.str s

/-- The genesis `previous_hash` value, the integer `1`. -/
def SENTINEL : PyVal := .int 1

structure Transaction where
  sender : String
  recipient : String
  amount : Int
deriving DecidableEq, Repr

/-- Dict literal from `new_transaction`: `{'sender': ..., 'recipient': ..., 'amount': ...}`. -/
def Transaction.toJson (t : Transaction) : Json :=
  .obj [("sender", .str t.sender), ("recipient", .str t.recipient), ("amount", .num t.amount)]

structure Block where
  index : Int
  timestamp : Int
  transactions : List Transaction
  proof : Int
  previous_hash : PyVal
deriving DecidableEq, Repr

/-- The block dict in the field-insertion order of the literal in `new_block`. -/
def Block.fields (b : Block) : List (String × Json) :=
  [("index", .num b.index), ("timestamp", .num b.timestamp),
   ("transactions", .arr (b.transactions.map Transaction.toJson)),
   ("proof", .num b.proof), ("previous_hash", b.previous_hash.toJson)]

structure Blockchain where
  chain : List Block
  current_transactions : List Transaction
deriving DecidableEq, Repr

/-- Placeholder result for indexing into an empty chain; `self.chain[-1]`
would raise `IndexError` there.  Every constructed ledger has a nonempty
chain, so this value is never produced by a reachable state. -/
def dummyBlock : Block := ⟨0, 0, [], 0, .int 0⟩

/-- `Blockchain.hash` on a raw dict: `sha256(json.dumps(block, sort_keys=True).encode()).hexdigest()`. -/
def hashDict (kvs : List (String × Json)) : String :=
  sha256hex (strToBytes (Json.dumps (.obj kvs)))

/-- `Blockchain.hash` applied to a block value. -/
def Blockchain.hash (b : Block) : String := hashDict b.fields

/-- `self.chain[-1]` (the `last_block` property). -/
def Blockchain.last_block (bc : Blockchain) : Block := bc.chain.getLastD dummyBlock

/-- `Blockchain.new_block(self, proof, previous_hash=None)`: builds the block
dict (with `previous_hash or self.hash(self.chain[-1])`), resets the pending
transaction list, appends the block to the chain and returns it. -/
def Blockchain.new_block (bc : Blockchain) (ts : Int) (proof : Int)
    (previous_hash : Option PyVal) : Block × Blockchain :=
  let ph : PyVal :=
    match previous_hash with
    | some v => if v.truthy then v else .str (Blockchain.hash bc.last_block)
    | none => .str (Blockchain.hash bc.last_block)
  let block : Block := ⟨(bc.chain.length : Int) + 1, ts, bc.current_transactions, proof, ph⟩
  (block, ⟨bc.chain ++ [block], []⟩)

/-- `Blockchain.__init__`: empty chain and pool, then
`new_block(proof=100, previous_hash=1)` stamped with the construction time. -/
def Blockchain.init (ts : Int) : Blockchain :=
  (Blockchain.new_block ⟨[], []⟩ ts 100 (some (.int 1))).2

/-- `Blockchain.new_transaction`: appends the transaction to
`current_transactions` and returns `self.last_block['index'] + 1`. -/
def Blockchain.new_transaction (bc : Blockchain) (sender recipient : String)
    (amount : Int) : Int × Blockchain :=
  (bc.last_block.index + 1, ⟨bc.chain, bc.current_transactions ++ [⟨sender, recipient, amount⟩]⟩)

/-- `Blockchain.valid_proof(block_string, proof)`: hashes
`f'{block_string}{proof}'.encode()` — the CPython `repr` of the bytes
argument followed by the decimal form of `proof` — and compares the first
six hex characters of the digest with `"000000"`. -/
def Blockchain.valid_proof (block_string : List Nat) (proof : Int) : Bool :=
  (sha256hexChars (strToBytes (pyBytesRepr block_string ++ toString proof))).take 6
    == "000000".data

/-- `json.dumps(blockchain.last_block, sort_keys=True).encode()` as computed
in the `/mine` route. -/
def lastBlockString (bc : Blockchain) : List Nat :=
  strToBytes (Json.dumps (.obj bc.last_block.fields))

inductive MineResult where
  | forged (block : Block)
  | failure
deriving DecidableEq, Repr

/-- The `/mine` route body, after its `'proof' in data and 'id' in data`
guard has passed: computes `previous_hash = blockchain.hash(blockchain.last_block)`
and the canonical string of the last block, checks `valid_proof`, and on
success forges the block and queues the reward transaction
`(sender="0", recipient=data['id'], amount=1)`. -/
def mine (bc : Blockchain) (ts : Int) (proof : Int) (minerId : String) :
    MineResult × Blockchain :=
  let previous_hash := PyVal.str (Blockchain.hash bc.last_block)
  let last_block_string := lastBlockString bc
  if Blockchain.valid_proof last_block_string proof then
    let (block, bc1) := bc.new_block ts proof (some previous_hash)
    let (_, bc2) := bc1.new_transaction "0" minerId 1
    (.forged block, bc2)
  else
    (.failure, bc)

/-- The global name `required` used by the `/transactions/new` route guard
`all(k in values for k in required)` is never bound anywhere in the source
module, so evaluating the guard raises `NameError`; the absent binding is
modeled as `none`. -/
def required : Option (List String) := none

structure TxRequest where
  sender : Option String
  recipient : Option String
  amount : Option Int

def TxRequest.hasField (v : TxRequest) : String → Bool
  | "sender" => v.sender.isSome
  | "recipient" => v.recipient.isSome
  | "amount" => v.amount.isSome
  | _ => false

inductive TxRouteResult where
  | success (index : Int)
  | missingValues
  | nameError
deriving DecidableEq, Repr

/-- The `/transactions/new` route body: evaluating `required` raises
`NameError` since the name is unbound; the guarded branches below it are
dead code in the source. -/
def new_transaction_route (bc : Blockchain) (values : TxRequest) :
    TxRouteResult × Blockchain :=
  match required with
  | none => (.nameError, bc)
  | some req =>
      if req.all values.hasField then
        let (i, bc') := bc.new_transaction (values.sender.getD "") (values.recipient.getD "")
          (values.amount.getD 0)
        (.success i, bc')
      else
        (.missingValues, bc)

/-- States reachable from construction through the exposed mutating
operations (`last_block` and the chain snapshot are read-only).  The
transaction-queuing step is taken at the `new_transaction` method, which is
the mutation the route would perform; timestamps and all request payloads
are arbitrary. -/
inductive Reachable : Blockchain → Prop
  | init (ts : Int) : Reachable (Blockchain.init ts)
  | tx {bc : Blockchain} (s r : String) (a : Int) :
      Reachable bc → Reachable (bc.new_transaction s r a).2
  | mine {bc : Blockchain} (ts proof : Int) (minerId : String) :
      Reachable bc → Reachable (mine bc ts proof minerId).2

/-! ## Chain-shape predicates and the spec-side Difficulty Predicate -/

/-- `linkedAfter p c`: every block of `c` carries the digest of the block
before it, the first one linking to `p`. -/
def linkedAfter : Block → List Block → Bool
  | _, [] => true
  | p, b :: rest => (b.previous_hash == PyVal.str (Blockchain.hash p)) && linkedAfter b rest

/-- The chain is nonempty, starts at a sentinel block and is hash-linked. -/
def chainOk : List Block → Bool
  | [] => false
  | b :: rest => (b.previous_hash == SENTINEL) && linkedAfter b rest

/-- Every position of the list carries index `n + position`. -/
def idxFrom : Int → List Block → Bool
  | _, [] => true
  | n, b :: rest => (b.index == n) && idxFrom (n + 1) rest

/-- The Difficulty Predicate as the spec words it: a SHA-256 digest over the
concatenation of the given byte representation itself with the decimal text
of `proof`, compared against six leading `"0"` characters.  Stated for
comparison with the source's `Blockchain.valid_proof`. -/
def specValidProof (r : List Nat) (proof : Int) : Bool :=
  (sha256hexChars (r ++ strToBytes (toString proof))).take 6 == "000000".data

/-- Strict-or-equal key order on serialized entries; antisymmetric, which the
non-strict `entryLe` is not (two entries may share a key). -/
def entryR (p q : String × String) : Prop :=
  (strLe p.1 q.1 = true ∧ strLe q.1 p.1 = false) ∨ p = q

/-! ## Basic facts about digests, truthiness and serialization -/

theorem toHexFixed_length (k : Nat) : ∀ n, (toHexFixed k n).length = k := by
  induction k with
  | zero => intro n; rfl
  | succ k ih => intro n; simp [toHexFixed, ih]

theorem sha256hexChars_length (msg : List Nat) : (sha256hexChars msg).length = 64 := by
  simp [sha256hexChars, sha256words, hexCharsOfWords, toHexFixed_length]

theorem string_mk_eq_empty {l : List Char} (h : String.mk l = "") : l = [] :=
  congrArg String.data h

theorem sha256hex_ne_empty (msg : List Nat) : sha256hex msg ≠ "" := by
  intro h
  have hl := sha256hexChars_length msg
  rw [string_mk_eq_empty h] at hl
  simp at hl

theorem truthy_hash_str (b : Block) : (PyVal.str (Blockchain.hash b)).truthy = true := by
  simp only [PyVal.truthy, bne_iff_ne, ne_eq, decide_eq_true_eq]
  exact sha256hex_ne_empty _

theorem strToBytes_append (s t : String) :
    strToBytes (s ++ t) = strToBytes s ++ strToBytes t := by
  simp [strToBytes]

/-! ## Order properties of the key comparison, and uniqueness of the sorted entry list -/

theorem charListLe_total (a : List Char) : ∀ b, charListLe a b = true ∨ charListLe b a = true := by
  induction a with
  | nil => intro b; left; rfl
  | cons x xs ih =>
      intro b
      cases b with
      | nil => right; rfl
      | cons y ys =>
          rcases Nat.lt_trichotomy x.toNat y.toNat with h | h | h
          · left; simp [charListLe, h]
          · have h2 : ¬ x.toNat < y.toNat := by omega
            have h3 : ¬ y.toNat < x.toNat := by omega
            rcases ih ys with h4 | h4
            · left; simpa [charListLe, h2, h3] using h4
            · right; simpa [charListLe, h2, h3] using h4
          · right; simp [charListLe, h]

theorem charListLe_trans (a : List Char) : ∀ b c, charListLe a b = true →
    charListLe b c = true → charListLe a c = true := by
  induction a with
  | nil => intro b c _ _; rfl
  | cons x xs ih =>
      intro b c hab hbc
      cases b with
      | nil => simp [charListLe] at hab
      | cons y ys =>
          cases c with
          | nil => simp [charListLe] at hbc
          | cons z zs =>
              by_cases hxy : x.toNat < y.toNat
              · by_cases hyz : y.toNat < z.toNat
                · have h : x.toNat < z.toNat := Nat.lt_trans hxy hyz
                  simp [charListLe, h]
                · by_cases hzy : z.toNat < y.toNat
                  · simp [charListLe, hyz, hzy] at hbc
                  · have h : x.toNat < z.toNat := by omega
                    simp [charListLe, h]
              · by_cases hyx : y.toNat < x.toNat
                · simp [charListLe, hxy, hyx] at hab
                · by_cases hyz : y.toNat < z.toNat
                  · have h : x.toNat < z.toNat := by omega
                    simp [charListLe, h]
                  · by_cases hzy : z.toNat < y.toNat
                    · simp [charListLe, hyz, hzy] at hbc
                    · have h1 : ¬ x.toNat < z.toNat := by omega
                      have h2 : ¬ z.toNat < x.toNat := by omega
                      simp [charListLe, hxy, hyx] at hab
                      simp [charListLe, hyz, hzy] at hbc
                      simpa [charListLe, h1, h2] using ih ys zs hab hbc

theorem charListLe_antisymm (a : List Char) : ∀ b, charListLe a b = true →
    charListLe b a = true → a = b := by
  induction a with
  | nil =>
      intro b _ hba
      cases b with
      | nil => rfl
      | cons y ys => simp [charListLe] at hba
  | cons x xs ih =>
      intro b hab hba
      cases b with
      | nil => simp [charListLe] at hab
      | cons y ys =>
          by_cases hxy : x.toNat < y.toNat
          · have h2 : ¬ y.toNat < x.toNat := by omega
            simp [charListLe, hxy, h2] at hba
          · by_cases hyx : y.toNat < x.toNat
            · simp [charListLe, hxy, hyx] at hab
            · have hx : x = y := by
                have he : x.toNat = y.toNat := by omega
                have := congrArg Char.ofNat he
                rwa [Char.ofNat_toNat, Char.ofNat_toNat] at this
              simp [charListLe, hxy, hyx] at hab hba
              rw [hx, ih ys hab hba]

theorem strLe_total (s t : String) : strLe s t = true ∨ strLe t s = true :=
  charListLe_total s.data t.data

theorem strLe_trans {s t u : String} (h1 : strLe s t = true) (h2 : strLe t u = true) :
    strLe s u = true :=
  charListLe_trans s.data t.data u.data h1 h2

theorem strLe_antisymm {s t : String} (h1 : strLe s t = true) (h2 : strLe t s = true) :
    s = t := by
  have h := charListLe_antisymm s.data t.data h1 h2
  cases s; cases t
  exact congrArg String.mk h

instance : IsTotal (String × String) entryLe := ⟨fun p q => strLe_total p.1 q.1⟩

instance : IsTrans (String × String) entryLe := ⟨fun _ _ _ => strLe_trans⟩

instance : IsAntisymm (String × String) entryR := by
  refine ⟨fun p q h1 h2 => ?_⟩
  rcases h1 with ⟨hle, hnot⟩ | he
  · rcases h2 with ⟨hle2, _⟩ | he2
    · rw [hle2] at hnot; exact absurd hnot (by simp)
    · exact he2.symm
  · exact he

theorem sorted_entryR (l : List (String × String)) (hnd : (l.map Prod.fst).Nodup) :
    List.Sorted entryR (sortEntries l) := by
  have hs : List.Sorted entryLe (sortEntries l) := List.sorted_insertionSort entryLe l
  have hperm : List.Perm (sortEntries l) l := List.perm_insertionSort entryLe l
  have hnd2 : ((sortEntries l).map Prod.fst).Nodup := ((hperm.map Prod.fst).nodup_iff).mpr hnd
  have hpw : (sortEntries l).Pairwise (fun p q : String × String => p.1 ≠ q.1) :=
    (List.pairwise_map).mp hnd2
  refine (hs.and hpw).imp ?_
  rintro p q ⟨h1, h2⟩
  cases hq : strLe q.1 p.1 with
  | false => exact Or.inl ⟨h1, hq⟩
  | true => exact absurd (strLe_antisymm h1 hq) h2

theorem sortEntries_eq_of_perm {l l' : List (String × String)} (hp : List.Perm l l')
    (hnd : (l.map Prod.fst).Nodup) : sortEntries l = sortEntries l' := by
  have hnd2 : (l'.map Prod.fst).Nodup := ((hp.map Prod.fst).nodup_iff).mp hnd
  exact List.eq_of_perm_of_sorted
    ((List.perm_insertionSort entryLe l).trans (hp.trans (List.perm_insertionSort entryLe l').symm))
    (sorted_entryR l hnd) (sorted_entryR l' hnd2)

theorem dumpsEntries_eq_map (l : List (String × Json)) :
    Json.dumpsEntries l = l.map (fun kv => (kv.1, Json.dumps kv.2)) := by
  induction l with
  | nil => rfl
  | cons kv kvs ih => cases kv; simp [Json.dumpsEntries, ih]

/-! ## Chain-shape invariants -/

theorem linkedAfter_append (c : List Block) : ∀ (p b : Block),
    linkedAfter p (c ++ [b])
      = (linkedAfter p c && (b.previous_hash == PyVal.str (Blockchain.hash (c.getLastD p)))) := by
  induction c with
  | nil => intro p b; simp [linkedAfter]
  | cons hd rest ih =>
      intro p b
      rw [List.cons_append]
      simp only [linkedAfter, ih hd, List.getLastD_cons, Bool.and_assoc]

theorem chainOk_append (c : List Block) (b : Block) (h : chainOk c = true)
    (hb : b.previous_hash = PyVal.str (Blockchain.hash (c.getLastD dummyBlock))) :
    chainOk (c ++ [b]) = true := by
  cases c with
  | nil => simp [chainOk] at h
  | cons hd rest =>
      simp only [chainOk, Bool.and_eq_true] at h
      simp only [List.cons_append, chainOk, linkedAfter_append, Bool.and_eq_true]
      refine ⟨h.1, h.2, ?_⟩
      rw [List.getLastD_cons] at hb
      simp [hb]

theorem linkedAfter_get (c : List Block) : ∀ (p : Block), linkedAfter p c = true →
    ∀ i (hi : i < c.length),
      (c.get ⟨i, hi⟩).previous_hash
        = PyVal.str (Blockchain.hash ((p :: c).get ⟨i, Nat.lt_succ_of_lt hi⟩)) := by
  induction c with
  | nil => intro p _ i hi; exact absurd hi (Nat.not_lt_zero i)
  | cons hd rest ih =>
      intro p h i hi
      simp only [linkedAfter, Bool.and_eq_true, beq_iff_eq] at h
      cases i with
      | zero => exact h.1
      | succ j => exact ih hd h.2 j (Nat.lt_of_succ_lt_succ hi)

theorem chainOk_links (c : List Block) (h : chainOk c = true) (i : Nat)
    (hi : i + 1 < c.length) :
    (c.get ⟨i + 1, hi⟩).previous_hash
      = PyVal.str (Blockchain.hash (c.get ⟨i, Nat.lt_of_succ_lt hi⟩)) := by
  cases c with
  | nil => simp [chainOk] at h
  | cons hd rest =>
      simp only [chainOk, Bool.and_eq_true] at h
      exact linkedAfter_get rest hd h.2 i (Nat.lt_of_succ_lt_succ hi)

theorem chainOk_head (c : List Block) (h : chainOk c = true) :
    c.head?.map Block.previous_hash = some SENTINEL := by
  cases c with
  | nil => simp [chainOk] at h
  | cons hd rest =>
      simp only [chainOk, Bool.and_eq_true, beq_iff_eq] at h
      simp [h.1]

theorem idxFrom_append (c : List Block) : ∀ (n : Int) (b : Block),
    idxFrom n (c ++ [b]) = (idxFrom n c && (b.index == n + (c.length : Int))) := by
  induction c with
  | nil => intro n b; simp [idxFrom]
  | cons hd rest ih =>
      intro n b
      have h2 : n + 1 + (rest.length : Int) = n + ((hd :: rest).length : Int) := by
        push_cast [List.length_cons]; ring
      rw [List.cons_append]
      simp only [idxFrom, ih (n + 1), h2, Bool.and_assoc]

theorem idxFrom_get (c : List Block) : ∀ (n : Int), idxFrom n c = true →
    ∀ i (hi : i < c.length), (c.get ⟨i, hi⟩).index = n + (i : Int) := by
  induction c with
  | nil => intro n _ i hi; exact absurd hi (Nat.not_lt_zero i)
  | cons hd rest ih =>
      intro n h i hi
      simp only [idxFrom, Bool.and_eq_true, beq_iff_eq] at h
      cases i with
      | zero => simpa using h.1
      | succ j =>
          have := ih (n + 1) h.2 j (Nat.lt_of_succ_lt_succ hi)
          simp only [List.get_cons_succ] at this ⊢
          rw [this]; push_cast; ring

/-- Combined reachable-state invariant: the chain is sentinel-headed,
hash-linked, and consecutively indexed from 1. -/
theorem reachable_invariant (bc : Blockchain) (h : Reachable bc) :
    chainOk bc.chain = true ∧ idxFrom 1 bc.chain = true := by
  induction h with
  | init ts =>
      simp [Blockchain.init, Blockchain.new_block, chainOk, linkedAfter, idxFrom,
        SENTINEL, PyVal.truthy]
  | tx s r a _ ih => exact ih
  | @mine bc ts proof minerId _ ih =>
      by_cases hv : Blockchain.valid_proof (lastBlockString bc) proof
      · have hm : (Chain.mine bc ts proof minerId).2
            = ⟨bc.chain ++ [(bc.new_block ts proof (some (.str (Blockchain.hash bc.last_block)))).1],
               [⟨"0", minerId, 1⟩]⟩ := by
          simp [Chain.mine, hv, Blockchain.new_block, Blockchain.new_transaction]
        rw [hm]
        constructor
        · apply chainOk_append _ _ ih.1
          simp [Blockchain.new_block, truthy_hash_str, Blockchain.last_block]
        · rw [idxFrom_append]
          simp only [ih.2, Bool.true_and, beq_iff_eq, Blockchain.new_block]
          omega
      · have hm : (Chain.mine bc ts proof minerId).2 = bc := by
          simp [Chain.mine, hv]
        rw [hm]; exact ih

/-! ## The claims -/

/-- C1 (counterexample): at the byte string `b"a"` and proof `28474306`,
the digest of the plain concatenation `b"a" ++ b"28474306"` starts with
`"000000"`, yet `valid_proof` returns `false`, because the source hashes
the `repr` rendering `b'a'` of the bytes instead of the bytes themselves. -/
theorem claim_C1_cex :
    specValidProof [97] 28474306 = true
      ∧ Blockchain.valid_proof [97] 28474306 = false := by
  constructor
  · decide
  · decide

/-- C1 (amended): `valid_proof(repr, proof)` is true iff the lowercase hex
SHA-256 digest of the concatenation of the CPython `repr` rendering of the
byte string (the ASCII text `b'...'`) with the decimal textual form of
`proof` starts with `"000000"`; equivalently, `valid_proof` is the spec's
predicate applied to the `repr` rendering rather than to the bytes. -/
theorem claim_C1 (bs : List Nat) (p : Int) :
    Blockchain.valid_proof bs p = specValidProof (strToBytes (pyBytesRepr bs)) p := by
  simp [Blockchain.valid_proof, specValidProof, strToBytes_append]

/-- C2: in every reachable state, each block after position 0 carries the
Canonical Hasher's digest of its predecessor as `previous_hash`, no block
after position 0 carries the sentinel, and the block at position 0 does
carry the sentinel. -/
theorem claim_C2 (bc : Blockchain) (hr : Reachable bc) :
    (∀ i (hi : i + 1 < bc.chain.length),
        (bc.chain.get ⟨i + 1, hi⟩).previous_hash
          = PyVal.str (Blockchain.hash (bc.chain.get ⟨i, Nat.lt_of_succ_lt hi⟩)))
    ∧ (∀ i (hi : i + 1 < bc.chain.length),
        (bc.chain.get ⟨i + 1, hi⟩).previous_hash ≠ SENTINEL)
    ∧ bc.chain.head?.map Block.previous_hash = some SENTINEL := by
  obtain ⟨hok, -⟩ := reachable_invariant bc hr
  refine ⟨fun i hi => chainOk_links _ hok i hi, fun i hi heq => ?_, chainOk_head _ hok⟩
  rw [chainOk_links _ hok i hi] at heq
  simp [SENTINEL] at heq

/-- C2 witness: the freshly constructed ledger is reachable and its
position-0 block carries the sentinel. -/
theorem claim_C2_witness :
    (Blockchain.init 0).chain.head?.map Block.previous_hash = some SENTINEL :=
  (claim_C2 (Blockchain.init 0) (Reachable.init 0)).2.2

/-- C3: the `/transactions/new` route never validates nor queues anything:
the guard reads the global name `required`, which is not defined anywhere
in the module, so every request — fields present or not — raises
`NameError` and mutates nothing. -/
theorem claim_C3 (bc : Blockchain) (values : TxRequest) :
    new_transaction_route bc values = (TxRouteResult.nameError, bc) := rfl

/-- C4: whenever the Difficulty Predicate accepts `proof` against the
canonical representation of the last block, mining appends exactly one
block with `previous_hash = Hasher(last_block())` and the captured pending
pool as transactions, leaves the pool holding exactly the one reward
transaction `("0", minerId, 1)`, and returns the sealed block. -/
theorem claim_C4 (bc : Blockchain) (ts proof : Int) (minerId : String)
    (hv : Blockchain.valid_proof (lastBlockString bc) proof = true) :
    mine bc ts proof minerId
      = (MineResult.forged
          ⟨(bc.chain.length : Int) + 1, ts, bc.current_transactions, proof,
            PyVal.str (Blockchain.hash bc.last_block)⟩,
         ⟨bc.chain ++ [⟨(bc.chain.length : Int) + 1, ts, bc.current_transactions, proof,
            PyVal.str (Blockchain.hash bc.last_block)⟩],
          [⟨"0", minerId, 1⟩]⟩) := by
  simp [mine, hv, Blockchain.new_block, Blockchain.new_transaction, truthy_hash_str]

/-- C4 witness: proof `22644076` is accepted against the genesis block of
the ledger constructed at time 0, and mining with it seals block 2. -/
theorem claim_C4_witness :
    mine (Blockchain.init 0) 5 22644076 "miner"
      = (MineResult.forged
          ⟨((Blockchain.init 0).chain.length : Int) + 1, 5,
            (Blockchain.init 0).current_transactions, 22644076,
            PyVal.str (Blockchain.hash (Blockchain.init 0).last_block)⟩,
         ⟨(Blockchain.init 0).chain ++ [⟨((Blockchain.init 0).chain.length : Int) + 1, 5,
            (Blockchain.init 0).current_transactions, 22644076,
            PyVal.str (Blockchain.hash (Blockchain.init 0).last_block)⟩],
          [⟨"0", "miner", 1⟩]⟩) :=
  claim_C4 (Blockchain.init 0) 5 22644076 "miner" (by decide)

/-- C5: whenever the Difficulty Predicate rejects `proof` against the
canonical representation of the last block, mining returns the non-fatal
failure result and the state — chain and pending pool — is unchanged. -/
theorem claim_C5 (bc : Blockchain) (ts proof : Int) (minerId : String)
    (hv : Blockchain.valid_proof (lastBlockString bc) proof = false) :
    mine bc ts proof minerId = (MineResult.failure, bc) := by
  simp [mine, hv]

/-- C5 witness: proof `0` is rejected against the genesis block of the
ledger constructed at time 0, and mining with it changes nothing. -/
theorem claim_C5_witness :
    mine (Blockchain.init 0) 5 0 "miner" = (MineResult.failure, Blockchain.init 0) :=
  claim_C5 (Blockchain.init 0) 5 0 "miner" (by decide)

/-- C6: every seal captures exactly the pending pool as the new block's
transactions and leaves the pool empty; in particular, queuing
`("A","B",5)` on a fresh ledger and sealing yields a block holding exactly
that one transaction, with the pool empty afterwards. -/
theorem claim_C6 (bc : Blockchain) (ts p : Int) (ph : Option PyVal) (ts0 ts1 x : Int) :
    ((bc.new_block ts p ph).1.transactions = bc.current_transactions)
    ∧ ((bc.new_block ts p ph).2.current_transactions = [])
    ∧ ((((Blockchain.init ts0).new_transaction "A" "B" 5).2.new_block ts1 x none).1.transactions
        = [⟨"A", "B", 5⟩])
    ∧ ((((Blockchain.init ts0).new_transaction "A" "B" 5).2.new_block ts1 x
          none).2.current_transactions = []) :=
  ⟨rfl, rfl, rfl, rfl⟩

/-- C7: a freshly constructed ledger has exactly one block, of index 1,
proof 100 and sentinel `previous_hash`, with an empty pending pool; and the
Hasher can never produce the sentinel, its outputs being strings while the
sentinel is the integer 1. -/
theorem claim_C7 (ts : Int) :
    (Blockchain.init ts).chain = [⟨1, ts, [], 100, SENTINEL⟩]
    ∧ (Blockchain.init ts).current_transactions = []
    ∧ ∀ b : Block, PyVal.str (Blockchain.hash b) ≠ SENTINEL := by
  refine ⟨?_, rfl, fun b h => ?_⟩
  · simp [Blockchain.init, Blockchain.new_block, SENTINEL, PyVal.truthy]
  · simp [SENTINEL] at h

/-- C8: in every reachable state, the block at position `i` has index
`i + 1`; sealing a block grows the chain by exactly one, the new block's
index being the prior length plus one, both for a direct `new_block` seal
and for a successful mine. -/
theorem claim_C8 (bc : Blockchain) (hr : Reachable bc) :
    (∀ i (hi : i < bc.chain.length), (bc.chain.get ⟨i, hi⟩).index = (i : Int) + 1)
    ∧ (∀ (ts proof : Int) (ph : Option PyVal),
        (bc.new_block ts proof ph).2.chain.length = bc.chain.length + 1
          ∧ (bc.new_block ts proof ph).1.index = (bc.chain.length : Int) + 1)
    ∧ (∀ (ts proof : Int) (minerId : String) (b : Block),
        (mine bc ts proof minerId).1 = MineResult.forged b →
          (mine bc ts proof minerId).2.chain.length = bc.chain.length + 1
            ∧ b.index = (bc.chain.length : Int) + 1) := by
  obtain ⟨-, hidx⟩ := reachable_invariant bc hr
  refine ⟨fun i hi => ?_, fun ts proof ph => ⟨?_, rfl⟩, fun ts proof minerId b hb => ?_⟩
  · have := idxFrom_get _ 1 hidx i hi
    omega
  · simp [Blockchain.new_block]
  · by_cases hv : Blockchain.valid_proof (lastBlockString bc) proof
    · have hm1 : (mine bc ts proof minerId).1
          = MineResult.forged
              (bc.new_block ts proof (some (.str (Blockchain.hash bc.last_block)))).1 := by
        simp [mine, hv]
      have hm2 : (mine bc ts proof minerId).2.chain
          = bc.chain
            ++ [(bc.new_block ts proof (some (.str (Blockchain.hash bc.last_block)))).1] := by
        simp [mine, hv, Blockchain.new_block, Blockchain.new_transaction]
      rw [hm1] at hb
      injection hb with hb
      constructor
      · rw [hm2]; simp
      · rw [← hb]; rfl
    · have hm : (mine bc ts proof minerId).1 = MineResult.failure := by
        simp [mine, hv]
      rw [hm] at hb
      exact absurd hb (by simp)

/-- C8 witness: sealing on the freshly constructed ledger gives a chain of
length 2. -/
theorem claim_C8_witness : ((Blockchain.init 0).new_block 3 7 none).2.chain.length = 2 := by
  have h := (claim_C8 (Blockchain.init 0) (Reachable.init 0)).2.1 3 7 none
  rw [h.1]
  rfl

/-- C9: hashing a block dict is insensitive to the order in which its
fields were inserted: any two key-duplicate-free field lists that are
permutations of each other produce the identical digest, since
serialization sorts the entries by key. -/
theorem claim_C9 (kvs kvs' : List (String × Json)) (hp : List.Perm kvs kvs')
    (hnd : (kvs.map Prod.fst).Nodup) : hashDict kvs = hashDict kvs' := by
  have hperm : List.Perm (Json.dumpsEntries kvs) (Json.dumpsEntries kvs') := by
    rw [dumpsEntries_eq_map, dumpsEntries_eq_map]
    exact hp.map _
  have hndE : ((Json.dumpsEntries kvs).map Prod.fst).Nodup := by
    rw [dumpsEntries_eq_map, List.map_map]
    have hc : (Prod.fst ∘ fun kv : String × Json => (kv.1, Json.dumps kv.2)) = Prod.fst := by
      funext kv; rfl
    rw [hc]
    exact hnd
  have hsort := sortEntries_eq_of_perm hperm hndE
  unfold hashDict
  congr 1
  congr 1
  simp only [Json.dumps]
  rw [hsort]

/-- C9 witness: the two insertion orders of the fields `a` and `b` hash
identically. -/
theorem claim_C9_witness :
    hashDict [("b", Json.num 2), ("a", Json.num 1)]
      = hashDict [("a", Json.num 1), ("b", Json.num 2)] :=
  claim_C9 _ _ (List.Perm.swap ("a", Json.num 1) ("b", Json.num 2) []) (by decide)

/-- C10: an explicitly supplied but falsy `previous_hash` — the integer 0
or the empty string — is discarded by the `or` fallback and replaced with
the digest of the last block; a truthy argument is used verbatim. -/
theorem claim_C10 (bc : Blockchain) (ts p : Int) :
    ((bc.new_block ts p (some (PyVal.int 0))).1.previous_hash
        = PyVal.str (Blockchain.hash bc.last_block))
    ∧ ((bc.new_block ts p (some (PyVal.str ""))).1.previous_hash
        = PyVal.str (Blockchain.hash bc.last_block))
    ∧ (∀ v : PyVal, v.truthy = true →
        (bc.new_block ts p (some v)).1.previous_hash = v) := by
  refine ⟨?_, ?_, fun v hv => ?_⟩
  · simp [Blockchain.new_block, PyVal.truthy]
  · simp [Blockchain.new_block, PyVal.truthy]
  · simp [Blockchain.new_block, hv]

/-- C10 witness: the truthy string `"x"` is used verbatim. -/
theorem claim_C10_witness :
    ((Blockchain.init 0).new_block 1 2 (some (PyVal.str "x"))).1.previous_hash
      = PyVal.str "x" :=
  (claim_C10 (Blockchain.init 0) 1 2).2.2 (PyVal.str "x") (by decide)

end Chain
